import Mathlib

set_option maxHeartbeats 1000000

/-!
Verification development for the streamed DNS fuzzing pipeline
(files xx.py, xx_update.py, addlast.py).

The Python code is shallowly embedded: pure string manipulation is
modelled over List Char, files are modelled as Option (List String)
(none = the file does not exist, some lines = its lines), the external
resolver is an oracle function from a batch to its outcome, and the
durable ledger is a pair of the file contents and the in-memory seen set.
-/

/- leadsWith s p is true when p is a leading segment of s
   (models Python str.startswith at the character-list level). -/
def leadsWith : List Char → List Char → Bool
  | _, [] => true
  | [], _ :: _ => false
  | a :: s, b :: p => a == b && leadsWith s p

/- charsContains s p is true when p occurs as a contiguous segment of s
   (models the Python expression `p in s` on strings). -/
def charsContains : List Char → List Char → Bool
  | [], p => p.isEmpty
  | s@(_ :: rest), p => leadsWith s p || charsContains rest p

def strContains (s pat : String) : Bool := charsContains s.data pat.data

/- Models Python str.strip(): drop whitespace from both ends. -/
def pyStrip (s : String) : String :=
  ⟨((s.data.dropWhile Char.isWhitespace).reverse.dropWhile Char.isWhitespace).reverse⟩

/- Models Python str.rstrip("."): drop every trailing dot. -/
def rstripDots (s : String) : String :=
  ⟨(s.data.reverse.dropWhile (fun c => c == '.')).reverse⟩

/- Models Python str.split() with no argument: split on runs of
   whitespace, discarding empty pieces.  acc holds the current
   (reversed) non-whitespace run. -/
def splitWsAux : List Char → List Char → List (List Char)
  | [], acc => if acc.isEmpty then [] else [acc.reverse]
  | c :: rest, acc =>
      if c.isWhitespace then
        if acc.isEmpty then splitWsAux rest []
        else acc.reverse :: splitWsAux rest []
      else splitWsAux rest (c :: acc)

def fields (s : String) : List String := (splitWsAux s.data []).map String.mk

/- Models Python str.upper() for the ASCII record kinds compared here. -/
def pyUpper (s : String) : String := ⟨s.data.map Char.toUpper⟩

/- Models Python str.replace(pat, rep) for non-empty pat: replace every
   non-overlapping occurrence, scanning left to right.  The fuel argument
   (instantiated with the length of the string) makes the recursion
   structural; it never runs out because each step consumes at least one
   character. -/
def replaceFuel : Nat → List Char → List Char → List Char → List Char
  | 0, s, _, _ => s
  | _ + 1, [], _, _ => []
  | fuel + 1, c :: rest, pat, rep =>
      if pat ≠ [] && leadsWith (c :: rest) pat then
        rep ++ replaceFuel fuel (List.drop (pat.length - 1) rest) pat rep
      else
        c :: replaceFuel fuel rest pat rep

def pyReplace (s pat rep : String) : String :=
  ⟨replaceFuel s.data.length s.data pat.data rep.data⟩

/-! ## Pattern expander of xx.py / xx_update.py (pattern_domain_generator)

The two files contain the same generator; xx.py gates the main branch on
os.path.exists(main_wordlist_path) and xx_update.py on the path being
provided; both situations are modelled by main_wordlist being none. -/

def needsMain (pattern : String) : Bool :=
  strContains pattern "{fuzz_all}" || strContains pattern "{fuzz}" ||
    strContains pattern "{fuzz_number}"

def mainPlaceholders (pattern : String) : List String :=
  (if strContains pattern "{fuzz_all}" then ["{fuzz_all}"] else []) ++
  (if strContains pattern "{fuzz}" then ["{fuzz}"] else []) ++
  (if strContains pattern "{fuzz_number}" then ["{fuzz_number}"] else [])

/- base = pattern; for ph in main_placeholders: base = base.replace(ph, main_word) -/
def substMain (pattern main_word : String) : String :=
  (mainPlaceholders pattern).foldl (fun base ph => pyReplace base ph main_word) pattern

/- Models the stream (w.strip() for w in mf if w.strip()) and likewise the
   list comprehensions reading pattern and small wordlist files. -/
def cleanLines (lines : List String) : List String :=
  (lines.map pyStrip).filter (fun w => w ≠ "")

/- The number/region expansion applied to each streamed base in the main
   branch of pattern_domain_generator (the trailing else yields base). -/
def numberRegionExpand (base : String) (needsNumber needsRegion : Bool)
    (number_words region_words : List String) : List String :=
  if needsNumber && needsRegion then
    number_words.flatMap (fun n =>
      region_words.map (fun r => pyReplace (pyReplace base "{number}" n) "{region}" r))
  else if needsNumber then
    number_words.map (fun n => pyReplace base "{number}" n)
  else if needsRegion then
    region_words.map (fun r => pyReplace base "{region}" r)
  else
    [base]

def pattern_domain_generator (pattern : String) (main_wordlist : Option (List String))
    (number_words region_words : List String) : List String :=
  let nM := needsMain pattern
  let nN := strContains pattern "{number}"
  let nR := strContains pattern "{region}"
  if nM && main_wordlist.isNone then
    []
  else if !nM then
    if nN && nR then
      number_words.flatMap (fun n =>
        region_words.map (fun r => pyReplace (pyReplace pattern "{number}" n) "{region}" r))
    else if nN then
      number_words.map (fun n => pyReplace pattern "{number}" n)
    else if nR then
      region_words.map (fun r => pyReplace pattern "{region}" r)
    else
      []
  else
    match main_wordlist with
    | none => []
    | some lines =>
        (cleanLines lines).flatMap (fun main_word =>
          numberRegionExpand (substMain pattern main_word) nN nR number_words region_words)

/-! ## Result extractors -/

/- One line of parse_massdns_results_for_alive (xx.py): strip, skip empty,
   split, keep name (trailing dots stripped) when there are at least three
   fields and the second, uppercased, is the positive kind A. -/
def parseAliveLine (line : String) : Option String :=
  let l := pyStrip line
  if l = "" then none
  else
    match fields l with
    | p0 :: p1 :: _ :: _ => if pyUpper p1 = "A" then some (rstripDots p0) else none
    | _ => none

def parse_massdns_results_for_alive (results : Option (List String)) : List String :=
  match results with
  | none => []
  | some lines => lines.filterMap parseAliveLine

def joinWith (sep : String) : List String → String
  | [] => ""
  | [x] => x
  | x :: y :: rest => x ++ sep ++ joinWith sep (y :: rest)

/- One line of parse_massdns_simple_output (addlast.py): strip, skip empty,
   split, skip lines with fewer than three fields, and otherwise keep
   "name rtype rdata" for every record kind. -/
def parseSimpleLine (line : String) : Option String :=
  let l := pyStrip line
  if l = "" then none
  else
    match fields l with
    | p0 :: p1 :: p2 :: rest =>
        some (rstripDots p0 ++ " " ++ p1 ++ " " ++ joinWith " " (p2 :: rest))
    | _ => none

def parse_massdns_simple_output (results : Option (List String)) : List String :=
  match results with
  | none => []
  | some lines => lines.filterMap parseSimpleLine

/-! ## Dedup ledger (append_alive of xx.py and xx_update.py, identical code)

The ledger state is (file contents, in-memory seen set). -/

def appendStep (st : List String × Finset String) (d : String) :
    List String × Finset String :=
  if d ∈ st.2 then st else (st.1 ++ [d], insert d st.2)

def append_alive (alive_list : List String) (st : List String × Finset String) :
    List String × Finset String :=
  if alive_list.isEmpty then st else alive_list.foldl appendStep st

/-! ## Batch scheduler (the per-pattern loop of process_patterns_stream) -/

/- Mirrors the loop body: append the domain to the batch, count it; when the
   per-pattern cap is reached (0 = no cap) the cap branch dispatches the
   current batch and breaks WITHOUT clearing it, so the post-loop
   `if batch:` flush dispatches the very same batch a second time — hence
   the cap case yields the batch twice.  Otherwise flush and reset when the
   batch is full, and flush any non-empty trailing batch once at the end. -/
def batchLoop (batch_size max_per : Nat) :
    List String → List String → Nat → List (List String)
  | [], batch, _ => if batch.isEmpty then [] else [batch]
  | d :: rest, batch, processed =>
      let batch' := batch ++ [d]
      let processed' := processed + 1
      if max_per ≠ 0 ∧ max_per ≤ processed' then
        [batch', batch']
      else if batch_size ≤ batch'.length then
        batch' :: batchLoop batch_size max_per rest [] processed'
      else
        batchLoop batch_size max_per rest batch' processed'

def scheduleBatches (doms : List String) (batch_size max_per : Nat) :
    List (List String) :=
  batchLoop batch_size max_per doms [] 0

/-! ## Full pipeline (process_patterns_stream of xx.py)

The external resolver is an oracle mapping a dispatched batch to
(run_massdns_on_targets succeeded, contents of the results file). -/

def ResolverOracle := List String → Bool × Option (List String)

def ledgerStep (resolver : ResolverOracle) (st : List String × Finset String)
    (batch : List String) : List String × Finset String :=
  if (resolver batch).1 then
    append_alive (parse_massdns_results_for_alive (resolver batch).2) st
  else st

def processPattern (main_wordlist : Option (List String))
    (number_words region_words : List String) (batch_size max_per : Nat)
    (resolver : ResolverOracle) (st : List String × Finset String)
    (pattern : String) : List String × Finset String :=
  if needsMain pattern && main_wordlist.isNone then st
  else
    (scheduleBatches
        (pattern_domain_generator pattern main_wordlist number_words region_words)
        batch_size max_per).foldl (ledgerStep resolver) st

def process_patterns_stream (pattern_lines : List String)
    (main_wordlist : Option (List String)) (number_words region_words : List String)
    (batch_size max_per : Nat) (resolver : ResolverOracle)
    (ledger_file : List String) : List String × Finset String :=
  let seen0 := (ledger_file.map pyStrip).toFinset
  (cleanLines pattern_lines).foldl
    (processPattern main_wordlist number_words region_words batch_size max_per resolver)
    (ledger_file, seen0)

/-! ## Resolution adapter failure model (run_massdns_on_targets)

outcome is what the subprocess invocation would do: the massdns run exits
zero, exits non-zero (subprocess.run(check=True) raises
CalledProcessError), or the binary is absent (FileNotFoundError). -/

inductive RunOutcome where
  | success
  | calledProcessError
  | fileNotFound
deriving DecidableEq

inductive PyExn where
  | fileNotFoundError
deriving DecidableEq

/- xx.py run_massdns_on_targets: only CalledProcessError is caught (ok
   False, warning printed); FileNotFoundError propagates out of the whole
   run, modelled as Except.error. -/
def run_massdns_on_targets (targets_list : List String) (outcome : RunOutcome) :
    Except PyExn Bool :=
  if targets_list.isEmpty then .ok true
  else
    match outcome with
    | .success => .ok true
    | .calledProcessError => .ok false
    | .fileNotFound => .error .fileNotFoundError

/- xx_update.py run_massdns_on_targets: both CalledProcessError and
   FileNotFoundError are caught and both return False. -/
def run_massdns_on_targets_update (targets_list : List String) (outcome : RunOutcome) :
    Bool :=
  if targets_list.isEmpty then true
  else
    match outcome with
    | .success => true
    | .calledProcessError => false
    | .fileNotFound => false

/-! ## Pattern expander of addlast.py (expand_pattern) and its driver loop -/

/- itertools.product over a list of lists, in the same order. -/
def cartProd : List (List String) → List (List String)
  | [] => [[]]
  | l :: rest => l.flatMap (fun x => (cartProd rest).map (fun combo => x :: combo))

/- s = pattern; for tok, repl in zip(tokens, combo): s = s.replace(tok, repl) -/
def substCombo (pattern : String) (subs : List (String × String)) : String :=
  subs.foldl (fun s tr => pyReplace s tr.1 tr.2) pattern

/- tokens = [tok for tok in token_lists.keys() if tok in pattern], paired
   with their lists (the Python dict is modelled as an association list in
   insertion order). -/
def presentTokens (pattern : String) (token_lists : List (String × List String)) :
    List (String × List String) :=
  token_lists.filter (fun t => strContains pattern t.1)

/- total = 1; for lst in lists: total *= len(lst) -/
def expansionSize (pattern : String) (token_lists : List (String × List String)) : Nat :=
  ((presentTokens pattern token_lists).map Prod.snd).foldl (fun acc l => acc * l.length) 1

/- expand_pattern: Except Nat models the RuntimeError carrying the
   reported expansion size. -/
def expand_pattern (pattern : String) (token_lists : List (String × List String))
    (max_expand : Option Nat) : Except Nat (List String) :=
  let present := presentTokens pattern token_lists
  if present.isEmpty then .ok [pattern]
  else
    let lists := present.map Prod.snd
    if lists.any (fun l => l.length == 0) then .ok []
    else
      let total := lists.foldl (fun acc l => acc * l.length) 1
      let expanded := (cartProd lists).map (fun combo =>
        substCombo pattern ((present.map Prod.fst).zip combo))
      match max_expand with
      | some m => if m < total then .error total else .ok expanded
      | none => .ok expanded

/- Per-line outcome of the main loop of addlast.py. -/
inductive LineOutcome where
  | skipped
  | aborted (size : Nat)
  | noDomains
  | dispatched (candidates : List String)
deriving DecidableEq

def processLine (token_lists : List (String × List String)) (max_expand : Option Nat)
    (raw : String) : LineOutcome :=
  let line := pyStrip raw
  if line = "" ∨ leadsWith line.data ['#'] = true then .skipped
  else
    match expand_pattern line token_lists max_expand with
    | .error n => .aborted n
    | .ok [] => .noDomains
    | .ok cs => .dispatched cs

def addlastDriver (token_lists : List (String × List String)) (max_expand : Option Nat)
    (lines : List String) : List LineOutcome :=
  lines.map (processLine token_lists max_expand)

/-! ## Decomposition of the pipeline into a fold of ledger appends

These definitions restate the batch loop of process_patterns_stream as a
fold of append_alive over the per-batch alive lists; the equivalence is
proved below (process_patterns_stream_eq_foldAppend). -/

def foldAppend (alives : List (List String)) (st : List String × Finset String) :
    List String × Finset String :=
  alives.foldl (fun st a => append_alive a st) st

def batchAliveLists (resolver : ResolverOracle) (batches : List (List String)) :
    List (List String) :=
  batches.filterMap (fun b =>
    if (resolver b).1 then some (parse_massdns_results_for_alive (resolver b).2) else none)

def patternAliveLists (main_wordlist : Option (List String))
    (number_words region_words : List String) (batch_size max_per : Nat)
    (resolver : ResolverOracle) (pattern : String) : List (List String) :=
  if needsMain pattern && main_wordlist.isNone then []
  else
    batchAliveLists resolver
      (scheduleBatches
        (pattern_domain_generator pattern main_wordlist number_words region_words)
        batch_size max_per)

def runAliveLists (pattern_lines : List String) (main_wordlist : Option (List String))
    (number_words region_words : List String) (batch_size max_per : Nat)
    (resolver : ResolverOracle) : List (List String) :=
  (cleanLines pattern_lines).flatMap
    (patternAliveLists main_wordlist number_words region_words batch_size max_per resolver)

/-! ## Helper lemmas: characters and whitespace -/

theorem dropWhile_eq_self_of {p : Char → Bool} {l : List Char}
    (h : ∀ c ∈ l, p c = false) : l.dropWhile p = l := by
  cases l with
  | nil => rfl
  | cons c rest =>
      rw [List.dropWhile_cons_of_neg]
      simp [h c (List.mem_cons_self c rest)]

theorem pyStrip_eq_self {s : String} (h : ∀ c ∈ s.data, c.isWhitespace = false) :
    pyStrip s = s := by
  obtain ⟨data⟩ := s
  simp only [pyStrip]
  rw [dropWhile_eq_self_of h, dropWhile_eq_self_of, List.reverse_reverse]
  intro c hc
  exact h c (List.mem_reverse.mp hc)

theorem splitWsAux_no_ws :
    ∀ (cs acc : List Char), (∀ c ∈ acc, c.isWhitespace = false) →
      ∀ p ∈ splitWsAux cs acc, ∀ c ∈ p, c.isWhitespace = false := by
  intro cs
  induction cs with
  | nil =>
      intro acc hacc p hp
      simp only [splitWsAux] at hp
      by_cases he : acc.isEmpty
      · simp [he] at hp
      · simp [he] at hp
        intro c hc
        exact hacc c (List.mem_reverse.mp (hp ▸ hc))
  | cons c rest ih =>
      intro acc hacc p hp
      simp only [splitWsAux] at hp
      by_cases hw : c.isWhitespace
      · simp only [hw, if_true] at hp
        by_cases he : acc.isEmpty
        · simp only [he, if_true] at hp
          exact ih [] (by simp) p hp
        · simp only [he, if_false] at hp
          rcases List.mem_cons.mp hp with h1 | h1
          · intro x hx
            exact hacc x (List.mem_reverse.mp (h1 ▸ hx))
          · exact ih [] (by simp) p h1
      · simp only [hw, if_false] at hp
        refine ih (c :: acc) ?_ p hp
        intro x hx
        rcases List.mem_cons.mp hx with h1 | h1
        · rw [h1]; exact Bool.of_not_eq_true hw
        · exact hacc x h1

theorem fields_no_ws {s : String} :
    ∀ f ∈ fields s, ∀ c ∈ f.data, c.isWhitespace = false := by
  intro f hf
  simp only [fields, List.mem_map] at hf
  obtain ⟨p, hp, hfp⟩ := hf
  intro c hc
  have : c ∈ p := by
    have : (String.mk p).data = p := rfl
    rw [← hfp] at hc
    simpa [this] using hc
  exact splitWsAux_no_ws s.data [] (by simp) p hp c this

theorem rstripDots_chars {s : String} : ∀ c ∈ (rstripDots s).data, c ∈ s.data := by
  intro c hc
  simp only [rstripDots] at hc
  have h1 : c ∈ s.data.reverse.dropWhile (fun c => c == '.') := List.mem_reverse.mp hc
  have h2 : c ∈ s.data.reverse := (List.dropWhile_sublist _).mem h1
  exact List.mem_reverse.mp h2

theorem parseAliveLine_strip_inv {line d : String}
    (h : parseAliveLine line = some d) : pyStrip d = d := by
  simp only [parseAliveLine] at h
  by_cases he : pyStrip line = ""
  · simp [he] at h
  · simp only [he, if_false] at h
    cases hf : fields (pyStrip line) with
    | nil => rw [hf] at h; simp at h
    | cons p0 tail =>
        cases tail with
        | nil => rw [hf] at h; simp at h
        | cons p1 tail2 =>
            cases tail2 with
            | nil => rw [hf] at h; simp at h
            | cons p2 tail3 =>
                rw [hf] at h
                by_cases hA : pyUpper p1 = "A"
                · simp only [hA, if_true] at h
                  have hd : d = rstripDots p0 := by
                    cases h; rfl
                  subst hd
                  apply pyStrip_eq_self
                  intro c hc
                  have hcp : c ∈ p0.data := rstripDots_chars c hc
                  exact fields_no_ws p0 (hf ▸ List.mem_cons_self p0 _) c hcp
                · simp [hA] at h

theorem parse_alive_strip_inv {res : Option (List String)} {d : String}
    (h : d ∈ parse_massdns_results_for_alive res) : pyStrip d = d := by
  cases res with
  | none => simp [parse_massdns_results_for_alive] at h
  | some lines =>
      simp only [parse_massdns_results_for_alive, List.mem_filterMap] at h
      obtain ⟨line, _, hl⟩ := h
      exact parseAliveLine_strip_inv hl

/-! ## Helper lemmas: the dedup ledger -/

theorem append_alive_eq_foldl (alive : List String) (st : List String × Finset String) :
    append_alive alive st = alive.foldl appendStep st := by
  cases alive with
  | nil => simp [append_alive]
  | cons d rest => simp [append_alive]

theorem foldl_appendStep_spec :
    ∀ (alive : List String) (st : List String × Finset String),
      ∃ s, alive.foldl appendStep st = (st.1 ++ s, st.2 ∪ s.toFinset) ∧ s.Nodup ∧
        (∀ d ∈ s, d ∈ alive ∧ d ∉ st.2) ∧
        ∀ d ∈ alive, d ∈ (alive.foldl appendStep st).2 := by
  intro alive
  induction alive with
  | nil =>
      intro st
      exact ⟨[], by simp, by simp, by simp, by simp⟩
  | cons d rest ih =>
      intro st
      by_cases hd : d ∈ st.2
      · have hstep : appendStep st d = st := by simp [appendStep, hd]
        obtain ⟨s, hpair, hnd, hmem, hall⟩ := ih st
        refine ⟨s, ?_, hnd, ?_, ?_⟩
        · simpa [List.foldl_cons, hstep] using hpair
        · intro x hx
          exact ⟨List.mem_cons_of_mem d (hmem x hx).1, (hmem x hx).2⟩
        · intro x hx
          rcases List.mem_cons.mp hx with h1 | h1
          · subst h1
            have : (List.foldl appendStep st (x :: rest)).2 = st.2 ∪ s.toFinset := by
              simp [List.foldl_cons, hstep, hpair]
            rw [this]
            exact Finset.mem_union_left _ hd
          · simpa [List.foldl_cons, hstep] using hall x h1
      · have hstep : appendStep st d = (st.1 ++ [d], insert d st.2) := by
          simp [appendStep, hd]
        obtain ⟨s, hpair, hnd, hmem, hall⟩ := ih (st.1 ++ [d], insert d st.2)
        have hds : d ∉ s := by
          intro hds
          exact (hmem d hds).2 (Finset.mem_insert_self d st.2)
        refine ⟨d :: s, ?_, ?_, ?_, ?_⟩
        · rw [List.foldl_cons, hstep, hpair]
          refine Prod.ext ?_ ?_
          · simp
          · simp only [List.toFinset_cons]
            rw [Finset.insert_union, Finset.union_insert]
        · exact List.nodup_cons.mpr ⟨hds, hnd⟩
        · intro x hx
          rcases List.mem_cons.mp hx with h1 | h1
          · subst h1
            exact ⟨List.mem_cons_self x rest, hd⟩
          · refine ⟨List.mem_cons_of_mem d (hmem x h1).1, ?_⟩
            intro hx2
            exact (hmem x h1).2 (Finset.mem_insert_of_mem hx2)
        · intro x hx
          have hres : (List.foldl appendStep st (d :: rest)).2
              = insert d st.2 ∪ s.toFinset := by
            simp [List.foldl_cons, hstep, hpair]
          rcases List.mem_cons.mp hx with h1 | h1
          · subst h1
            rw [hres]
            exact Finset.mem_union_left _ (Finset.mem_insert_self x st.2)
          · rw [List.foldl_cons, hstep]
            exact hall x h1

theorem append_alive_spec (alive : List String) (st : List String × Finset String) :
    ∃ s, append_alive alive st = (st.1 ++ s, st.2 ∪ s.toFinset) ∧ s.Nodup ∧
      (∀ d ∈ s, d ∈ alive ∧ d ∉ st.2) ∧
      ∀ d ∈ alive, d ∈ (append_alive alive st).2 := by
  rw [append_alive_eq_foldl]
  exact foldl_appendStep_spec alive st

theorem append_alive_noop (alive : List String) (st : List String × Finset String)
    (h : ∀ d ∈ alive, d ∈ st.2) : append_alive alive st = st := by
  rw [append_alive_eq_foldl]
  induction alive generalizing st with
  | nil => rfl
  | cons d rest ih =>
      rw [List.foldl_cons]
      have hstep : appendStep st d = st := by
        simp [appendStep, h d (List.mem_cons_self d rest)]
      rw [hstep]
      exact ih st (fun x hx => h x (List.mem_cons_of_mem d hx))

theorem foldAppend_spec :
    ∀ (alives : List (List String)) (st : List String × Finset String),
      ∃ s, foldAppend alives st = (st.1 ++ s, st.2 ∪ s.toFinset) ∧ s.Nodup ∧
        (∀ d ∈ s, (∃ a ∈ alives, d ∈ a) ∧ d ∉ st.2) ∧
        ∀ a ∈ alives, ∀ d ∈ a, d ∈ (foldAppend alives st).2 := by
  intro alives
  induction alives with
  | nil =>
      intro st
      exact ⟨[], by simp [foldAppend], by simp, by simp, by simp⟩
  | cons a rest ih =>
      intro st
      obtain ⟨s1, hpair1, hnd1, hmem1, hall1⟩ := append_alive_spec a st
      obtain ⟨s2, hpair2, hnd2, hmem2, hall2⟩ := ih (append_alive a st)
      have hfold : foldAppend (a :: rest) st = foldAppend rest (append_alive a st) := by
        simp [foldAppend]
      have hseen1 : (append_alive a st).2 = st.2 ∪ s1.toFinset := by rw [hpair1]
      have hfile1 : (append_alive a st).1 = st.1 ++ s1 := by rw [hpair1]
      refine ⟨s1 ++ s2, ?_, ?_, ?_, ?_⟩
      · rw [hfold, hpair2, hfile1, hseen1]
        refine Prod.ext ?_ ?_
        · simp [List.append_assoc]
        · simp only [List.toFinset_append]
          rw [Finset.union_assoc]
      · rw [List.nodup_append]
        refine ⟨hnd1, hnd2, ?_⟩
        intro x hx1 hx2
        have : x ∈ (append_alive a st).2 := by
          rw [hseen1]
          exact Finset.mem_union_right _ (List.mem_toFinset.mpr hx1)
        exact (hmem2 x hx2).2 this
      · intro x hx
        rcases List.mem_append.mp hx with h1 | h1
        · exact ⟨⟨a, List.mem_cons_self a rest, (hmem1 x h1).1⟩, (hmem1 x h1).2⟩
        · refine ⟨?_, ?_⟩
          · obtain ⟨a0, ha0, hxa0⟩ := (hmem2 x h1).1
            exact ⟨a0, List.mem_cons_of_mem a ha0, hxa0⟩
          · intro hx2
            refine (hmem2 x h1).2 ?_
            rw [hseen1]
            exact Finset.mem_union_left _ hx2
      · intro a0 ha0 x hx
        rcases List.mem_cons.mp ha0 with h1 | h1
        · subst h1
          have hx1 : x ∈ (append_alive a0 st).2 := hall1 x hx
          have hmono : (append_alive a0 st).2 ⊆ (foldAppend rest (append_alive a0 st)).2 := by
            rw [hpair2]
            exact Finset.subset_union_left
          rw [hfold]
          exact hmono hx1
        · rw [hfold]
          exact hall2 a0 h1 x hx

theorem foldAppend_noop (alives : List (List String)) (st : List String × Finset String)
    (h : ∀ a ∈ alives, ∀ d ∈ a, d ∈ st.2) : foldAppend alives st = st := by
  induction alives generalizing st with
  | nil => rfl
  | cons a rest ih =>
      have h1 : append_alive a st = st :=
        append_alive_noop a st (h a (List.mem_cons_self a rest))
      have : foldAppend (a :: rest) st = foldAppend rest (append_alive a st) := by
        simp [foldAppend]
      rw [this, h1]
      exact ih st (fun a0 ha0 => h a0 (List.mem_cons_of_mem a ha0))

/-! ## Helper lemmas: the pipeline as a fold of ledger appends -/

theorem foldl_ledgerStep_eq (resolver : ResolverOracle) :
    ∀ (batches : List (List String)) (st : List String × Finset String),
      batches.foldl (ledgerStep resolver) st = foldAppend (batchAliveLists resolver batches) st := by
  intro batches
  induction batches with
  | nil => intro st; rfl
  | cons b rest ih =>
      intro st
      by_cases hb : (resolver b).1
      · have h1 : ledgerStep resolver st b
            = append_alive (parse_massdns_results_for_alive (resolver b).2) st := by
          simp [ledgerStep, hb]
        have h2 : batchAliveLists resolver (b :: rest)
            = parse_massdns_results_for_alive (resolver b).2 :: batchAliveLists resolver rest := by
          simp [batchAliveLists, hb]
        rw [List.foldl_cons, h1, h2]
        have h3 : foldAppend (parse_massdns_results_for_alive (resolver b).2
              :: batchAliveLists resolver rest)
              (st) = foldAppend (batchAliveLists resolver rest)
              (append_alive (parse_massdns_results_for_alive (resolver b).2) st) := by
          simp [foldAppend]
        rw [h3]
        exact ih _
      · have h1 : ledgerStep resolver st b = st := by
          simp [ledgerStep, hb]
        have h2 : batchAliveLists resolver (b :: rest) = batchAliveLists resolver rest := by
          simp [batchAliveLists, hb]
        rw [List.foldl_cons, h1, h2]
        exact ih st

theorem processPattern_eq (main_wordlist : Option (List String))
    (number_words region_words : List String) (batch_size max_per : Nat)
    (resolver : ResolverOracle) (st : List String × Finset String) (pattern : String) :
    processPattern main_wordlist number_words region_words batch_size max_per resolver st pattern
      = foldAppend
          (patternAliveLists main_wordlist number_words region_words batch_size max_per
            resolver pattern) st := by
  by_cases h : needsMain pattern && main_wordlist.isNone
  · simp [processPattern, patternAliveLists, h, foldAppend]
  · simp only [processPattern, patternAliveLists, h, if_false, Bool.false_eq_true]
    exact foldl_ledgerStep_eq resolver _ st

theorem foldAppend_append (as bs : List (List String)) (st : List String × Finset String) :
    foldAppend (as ++ bs) st = foldAppend bs (foldAppend as st) := by
  simp [foldAppend, List.foldl_append]

theorem process_patterns_stream_eq (pattern_lines : List String)
    (main_wordlist : Option (List String)) (number_words region_words : List String)
    (batch_size max_per : Nat) (resolver : ResolverOracle) (ledger_file : List String) :
    process_patterns_stream pattern_lines main_wordlist number_words region_words
        batch_size max_per resolver ledger_file
      = foldAppend
          (runAliveLists pattern_lines main_wordlist number_words region_words
            batch_size max_per resolver)
          (ledger_file, (ledger_file.map pyStrip).toFinset) := by
  simp only [process_patterns_stream, runAliveLists]
  generalize (ledger_file, (ledger_file.map pyStrip).toFinset) = st
  generalize cleanLines pattern_lines = ps
  induction ps generalizing st with
  | nil => rfl
  | cons p rest ih =>
      rw [List.foldl_cons, List.flatMap_cons, foldAppend_append, processPattern_eq]
      exact ih _

theorem runAliveLists_strip_inv (pattern_lines : List String)
    (main_wordlist : Option (List String)) (number_words region_words : List String)
    (batch_size max_per : Nat) (resolver : ResolverOracle) :
    ∀ a ∈ runAliveLists pattern_lines main_wordlist number_words region_words
        batch_size max_per resolver, ∀ d ∈ a, pyStrip d = d := by
  intro a ha d hd
  simp only [runAliveLists, List.mem_flatMap] at ha
  obtain ⟨p, _, hpa⟩ := ha
  simp only [patternAliveLists] at hpa
  by_cases h : needsMain p && main_wordlist.isNone
  · simp [h] at hpa
  · simp only [h, if_false, Bool.false_eq_true, batchAliveLists, List.mem_filterMap] at hpa
    obtain ⟨b, _, hb⟩ := hpa
    by_cases hok : (resolver b).1
    · simp only [hok, if_true] at hb
      cases hb
      exact parse_alive_strip_inv hd
    · simp [hok] at hb

/-- C2: running the full pipeline (process_patterns_stream) twice with identical
patterns and identical resolver responses leaves the durable ledger file containing
each positive name at most once, with no duplicate lines, and the second run leaves
the file exactly as the first run left it, because the in-memory seen set is
reloaded from the ledger file at the start of every run before the first append. -/
theorem c2_pipeline_idempotent (pattern_lines : List String)
    (main_wordlist : Option (List String)) (number_words region_words : List String)
    (batch_size max_per : Nat) (resolver : ResolverOracle) (ledger_file : List String)
    (hL : ledger_file.Nodup) :
    (process_patterns_stream pattern_lines main_wordlist number_words region_words
        batch_size max_per resolver
        (process_patterns_stream pattern_lines main_wordlist number_words region_words
          batch_size max_per resolver ledger_file).1).1
      = (process_patterns_stream pattern_lines main_wordlist number_words region_words
          batch_size max_per resolver ledger_file).1
    ∧ (process_patterns_stream pattern_lines main_wordlist number_words region_words
        batch_size max_per resolver ledger_file).1.Nodup := by
  have h1 := process_patterns_stream_eq pattern_lines main_wordlist number_words
    region_words batch_size max_per resolver ledger_file
  obtain ⟨s, hpair, hnd, hmem, hall⟩ :=
    foldAppend_spec
      (runAliveLists pattern_lines main_wordlist number_words region_words
        batch_size max_per resolver)
      (ledger_file, (ledger_file.map pyStrip).toFinset)
  have hsi : ∀ d ∈ s, pyStrip d = d := by
    intro d hd
    obtain ⟨⟨a, ha, hda⟩, _⟩ := hmem d hd
    exact runAliveLists_strip_inv pattern_lines main_wordlist number_words region_words
      batch_size max_per resolver a ha d hda
  have hF : (process_patterns_stream pattern_lines main_wordlist number_words region_words
      batch_size max_per resolver ledger_file).1 = ledger_file ++ s := by
    rw [h1, hpair]
  have hdisj : ∀ x ∈ ledger_file, x ∉ s := by
    intro x hxL hxs
    have hx1 : x ∉ ((ledger_file.map pyStrip).toFinset : Finset String) := (hmem x hxs).2
    refine hx1 (List.mem_toFinset.mpr ?_)
    have : pyStrip x = x := hsi x hxs
    exact List.mem_map.mpr ⟨x, hxL, this⟩
  have hnodup : (ledger_file ++ s).Nodup :=
    List.nodup_append.mpr ⟨hL, hnd, hdisj⟩
  have hseen2 : ∀ a ∈ runAliveLists pattern_lines main_wordlist number_words region_words
      batch_size max_per resolver, ∀ d ∈ a,
      d ∈ (((ledger_file ++ s).map pyStrip).toFinset : Finset String) := by
    intro a ha d hd
    have hd1 := hall a ha d hd
    rw [hpair] at hd1
    simp only [List.map_append, List.toFinset_append, Finset.mem_union]
    rcases Finset.mem_union.mp hd1 with h2 | h2
    · exact Or.inl h2
    · refine Or.inr (List.mem_toFinset.mpr ?_)
      have hds : d ∈ s := List.mem_toFinset.mp h2
      exact List.mem_map.mpr ⟨d, hds, hsi d hds⟩
  constructor
  · rw [hF]
    rw [process_patterns_stream_eq]
    rw [foldAppend_noop _ _ hseen2]
  · rw [hF]
    exact hnodup

theorem c2_witness :
    ([] : List String).Nodup ∧
    ((process_patterns_stream ["{fuzz_all}.example.com"] (some ["api", "dev", "www"]) [] [] 2 0
        (fun _ => (true, some ["api.example.com. A 1.2.3.4", "www.example.com. A 5.6.7.8"]))
        (process_patterns_stream ["{fuzz_all}.example.com"] (some ["api", "dev", "www"]) [] [] 2 0
          (fun _ => (true, some ["api.example.com. A 1.2.3.4", "www.example.com. A 5.6.7.8"]))
          []).1).1
      = (process_patterns_stream ["{fuzz_all}.example.com"] (some ["api", "dev", "www"]) [] [] 2 0
          (fun _ => (true, some ["api.example.com. A 1.2.3.4", "www.example.com. A 5.6.7.8"]))
          []).1
    ∧ (process_patterns_stream ["{fuzz_all}.example.com"] (some ["api", "dev", "www"]) [] [] 2 0
        (fun _ => (true, some ["api.example.com. A 1.2.3.4", "www.example.com. A 5.6.7.8"]))
        []).1.Nodup) :=
  ⟨by decide,
    c2_pipeline_idempotent ["{fuzz_all}.example.com"] (some ["api", "dev", "www"]) [] [] 2 0
      (fun _ => (true, some ["api.example.com. A 1.2.3.4", "www.example.com. A 5.6.7.8"]))
      [] (by decide)⟩

/-- C8: across every sequence of calls to append_alive within one run, starting
from ledger file file0 and seen set seen0, the file grows only by a duplicate-free
suffix s of names none of which was in the seen set, every appended name is added
to the seen set, and every processed name ends up in the seen set — so each name
is written at most once, even when one batch's positive list repeats a name. -/
theorem c8_append_alive_once (batches : List (List String)) (file0 : List String)
    (seen0 : Finset String) :
    ∃ s, foldAppend batches (file0, seen0) = (file0 ++ s, seen0 ∪ s.toFinset)
      ∧ s.Nodup
      ∧ (∀ d ∈ s, (∃ b ∈ batches, d ∈ b) ∧ d ∉ seen0)
      ∧ ∀ b ∈ batches, ∀ d ∈ b, d ∈ seen0 ∪ s.toFinset := by
  obtain ⟨s, hpair, hnd, hmem, hall⟩ := foldAppend_spec batches (file0, seen0)
  refine ⟨s, hpair, hnd, hmem, ?_⟩
  intro b hb d hd
  have hdm := hall b hb d hd
  rw [hpair] at hdm
  exact hdm

theorem c8_witness :
    ∃ s, foldAppend [["x", "x"], ["x"]] ([], ∅) = ([] ++ s, ∅ ∪ s.toFinset)
      ∧ s.Nodup
      ∧ (∀ d ∈ s, (∃ b ∈ [["x", "x"], ["x"]], d ∈ b) ∧ d ∉ (∅ : Finset String))
      ∧ ∀ b ∈ [["x", "x"], ["x"]], ∀ d ∈ b, d ∈ (∅ : Finset String) ∪ s.toFinset :=
  c8_append_alive_once [["x", "x"], ["x"]] [] ∅

/-- C10: when the resolver output artifact does not exist (modelled as none), both
extractors return the empty list, and appending that empty positive list to the
ledger leaves the ledger state unchanged, so such a batch contributes nothing. -/
theorem c10_missing_results_file (st : List String × Finset String) :
    parse_massdns_results_for_alive none = []
  ∧ parse_massdns_simple_output none = []
  ∧ append_alive (parse_massdns_results_for_alive none) st = st := by
  refine ⟨rfl, rfl, ?_⟩
  simp [parse_massdns_results_for_alive, append_alive]

/-! ## Helper lemmas: the batch scheduler -/

theorem batchLoop_nocap_flatten (B K : Nat) :
    ∀ (doms batch : List String) (processed : Nat),
      batch.length < B → (K = 0 ∨ processed + doms.length < K) →
      (batchLoop B K doms batch processed).flatten = batch ++ doms := by
  intro doms
  induction doms with
  | nil =>
      intro batch processed hb hnc
      cases batch with
      | nil => simp [batchLoop]
      | cons x xs => simp [batchLoop]
  | cons d rest ih =>
      intro batch processed hb hnc
      simp only [batchLoop]
      have hcap : ¬(K ≠ 0 ∧ K ≤ processed + 1) := by
        rintro ⟨hK, hle⟩
        rcases hnc with h | h
        · exact hK h
        · simp only [List.length_cons] at h
          omega
      rw [if_neg hcap]
      have hnc' : K = 0 ∨ (processed + 1) + rest.length < K := by
        rcases hnc with h | h
        · exact Or.inl h
        · simp only [List.length_cons] at h
          omega
      by_cases hsize : B ≤ (batch ++ [d]).length
      · rw [if_pos hsize, List.flatten_cons]
        rw [ih [] (processed + 1) (by simpa using Nat.lt_of_le_of_lt (Nat.zero_le _) hb) hnc']
        simp
      · rw [if_neg hsize]
        have hb' : (batch ++ [d]).length < B := by
          rcases Nat.lt_or_ge ((batch ++ [d]).length) B with h | h
          · exact h
          · exact absurd h hsize
        rw [ih (batch ++ [d]) (processed + 1) hb' hnc']
        simp

theorem batchLoop_nocap_length (B K : Nat) :
    ∀ (doms batch : List String) (processed : Nat),
      batch.length < B → (K = 0 ∨ processed + doms.length < K) →
      (batchLoop B K doms batch processed).length
        = (batch.length + doms.length + B - 1) / B := by
  intro doms
  induction doms with
  | nil =>
      intro batch processed hb hnc
      cases batch with
      | nil =>
          simp only [batchLoop, List.isEmpty_nil, if_true, List.length_nil]
          rw [Nat.div_eq_of_lt (by omega)]
      | cons x xs =>
          simp only [batchLoop, List.isEmpty_cons, Bool.false_eq_true, if_false,
            List.length_singleton, List.length_nil]
          have h1 : ((x :: xs).length + 0 + B - 1) / B = 1 :=
            Nat.div_eq_of_lt_le (by simp only [List.length_cons] at hb ⊢; omega)
              (by simp only [List.length_cons] at hb ⊢; omega)
          rw [h1]
  | cons d rest ih =>
      intro batch processed hb hnc
      simp only [batchLoop]
      have hcap : ¬(K ≠ 0 ∧ K ≤ processed + 1) := by
        rintro ⟨hK, hle⟩
        rcases hnc with h | h
        · exact hK h
        · simp only [List.length_cons] at h
          omega
      rw [if_neg hcap]
      have hnc' : K = 0 ∨ (processed + 1) + rest.length < K := by
        rcases hnc with h | h
        · exact Or.inl h
        · simp only [List.length_cons] at h
          omega
      by_cases hsize : B ≤ (batch ++ [d]).length
      · rw [if_pos hsize, List.length_cons]
        rw [ih [] (processed + 1) (by simpa using Nat.lt_of_le_of_lt (Nat.zero_le _) hb) hnc']
        have hlen : batch.length + 1 = B := by
          simp only [List.length_append, List.length_singleton] at hsize
          omega
        have hnum : batch.length + (d :: rest).length + B - 1
            = (([] : List String).length + rest.length + B - 1) + B := by
          simp only [List.length_cons, List.length_nil]
          omega
        rw [hnum, Nat.add_div_right _ (by omega)]
      · rw [if_neg hsize]
        have hb' : (batch ++ [d]).length < B := by
          rcases Nat.lt_or_ge ((batch ++ [d]).length) B with h | h
          · exact h
          · exact absurd h hsize
        rw [ih (batch ++ [d]) (processed + 1) hb' hnc']
        have hnum : (batch ++ [d]).length + rest.length + B - 1
            = batch.length + (d :: rest).length + B - 1 := by
          simp only [List.length_append, List.length_singleton, List.length_cons,
            List.length_nil]
          omega
        rw [hnum]

theorem batchLoop_shape (B K : Nat) :
    ∀ (doms batch : List String) (processed : Nat), batch.length < B →
      ∀ b ∈ batchLoop B K doms batch processed, b ≠ [] ∧ b.length ≤ B := by
  intro doms
  induction doms with
  | nil =>
      intro batch processed hb b hmem
      cases batch with
      | nil => simp [batchLoop] at hmem
      | cons x xs =>
          simp [batchLoop] at hmem
          subst hmem
          exact ⟨by simp, Nat.le_of_lt hb⟩
  | cons d rest ih =>
      intro batch processed hb b hmem
      simp only [batchLoop] at hmem
      by_cases hcap : K ≠ 0 ∧ K ≤ processed + 1
      · rw [if_pos hcap] at hmem
        have hbd : b = batch ++ [d] := by
          rcases List.mem_cons.mp hmem with h1 | h1
          · exact h1
          · simpa using h1
        subst hbd
        refine ⟨by simp, ?_⟩
        simp only [List.length_append, List.length_singleton]
        omega
      · rw [if_neg hcap] at hmem
        by_cases hsize : B ≤ (batch ++ [d]).length
        · rw [if_pos hsize] at hmem
          rcases List.mem_cons.mp hmem with h1 | h1
          · subst h1
            refine ⟨by simp, ?_⟩
            simp only [List.length_append, List.length_singleton] at hsize ⊢
            omega
          · exact ih [] (processed + 1) (by simpa using Nat.lt_of_le_of_lt (Nat.zero_le _) hb) b h1
        · rw [if_neg hsize] at hmem
          have hb' : (batch ++ [d]).length < B := by
            rcases Nat.lt_or_ge ((batch ++ [d]).length) B with h | h
            · exact h
            · exact absurd h hsize
          exact ih (batch ++ [d]) (processed + 1) hb' b hmem

theorem batchLoop_nocap_dropLast (B K : Nat) :
    ∀ (doms batch : List String) (processed : Nat),
      batch.length < B → (K = 0 ∨ processed + doms.length < K) →
      ∀ b ∈ (batchLoop B K doms batch processed).dropLast, b.length = B := by
  intro doms
  induction doms with
  | nil =>
      intro batch processed hb hnc b hmem
      cases batch with
      | nil => simp [batchLoop] at hmem
      | cons x xs => simp [batchLoop] at hmem
  | cons d rest ih =>
      intro batch processed hb hnc b hmem
      simp only [batchLoop] at hmem
      have hcap : ¬(K ≠ 0 ∧ K ≤ processed + 1) := by
        rintro ⟨hK, hle⟩
        rcases hnc with h | h
        · exact hK h
        · simp only [List.length_cons] at h
          omega
      rw [if_neg hcap] at hmem
      have hnc' : K = 0 ∨ (processed + 1) + rest.length < K := by
        rcases hnc with h | h
        · exact Or.inl h
        · simp only [List.length_cons] at h
          omega
      by_cases hsize : B ≤ (batch ++ [d]).length
      · rw [if_pos hsize] at hmem
        have hlenB : (batch ++ [d]).length = B := by
          simp only [List.length_append, List.length_singleton] at hsize ⊢
          omega
        cases hrec : batchLoop B K rest [] (processed + 1) with
        | nil =>
            rw [hrec] at hmem
            simp at hmem
        | cons r rs =>
            rw [hrec, List.dropLast_cons₂] at hmem
            rcases List.mem_cons.mp hmem with h1 | h1
            · subst h1
              exact hlenB
            · have hih := ih [] (processed + 1)
                (by simpa using Nat.lt_of_le_of_lt (Nat.zero_le _) hb) hnc' b
              rw [hrec] at hih
              exact hih h1
      · rw [if_neg hsize] at hmem
        have hb' : (batch ++ [d]).length < B := by
          rcases Nat.lt_or_ge ((batch ++ [d]).length) B with h | h
          · exact h
          · exact absurd h hsize
        exact ih (batch ++ [d]) (processed + 1) hb' hnc' b hmem

theorem batchLoop_cap_structure (B K : Nat) :
    ∀ (doms batch : List String) (processed : Nat),
      batch.length < B → K ≠ 0 → processed < K → K - processed ≤ doms.length →
      ∃ bs last, batchLoop B K doms batch processed = bs ++ [last, last]
        ∧ (bs ++ [last]).flatten = batch ++ doms.take (K - processed)
        ∧ (bs ++ [last]).length = (batch.length + (K - processed) + B - 1) / B
        ∧ (∀ b ∈ bs, b.length = B)
        ∧ last ≠ [] ∧ last.length ≤ B := by
  intro doms
  induction doms with
  | nil =>
      intro batch processed hb hK hpK hle
      simp only [List.length_nil] at hle
      omega
  | cons d rest ih =>
      intro batch processed hb hK hpK hle
      simp only [batchLoop]
      by_cases hcap : K ≠ 0 ∧ K ≤ processed + 1
      · rw [if_pos hcap]
        have hK1 : K - processed = 1 := by omega
        refine ⟨[], batch ++ [d], by simp, ?_, ?_, by simp, by simp, ?_⟩
        · have htake : (d :: rest).take (K - processed) = [d] := by
            rw [hK1]
            rfl
          rw [htake]
          simp
        · rw [hK1]
          simp only [List.nil_append, List.length_singleton]
          have h1 : (batch.length + 1 + B - 1) / B = 1 :=
            Nat.div_eq_of_lt_le (by omega) (by omega)
          rw [h1]
        · simp only [List.length_append, List.length_singleton]
          omega
      · rw [if_neg hcap]
        have hpK' : processed + 1 < K := by
          rcases Nat.lt_or_ge (processed + 1) K with h | h
          · exact h
          · exact absurd ⟨hK, h⟩ hcap
        have hle' : K - (processed + 1) ≤ rest.length := by
          simp only [List.length_cons] at hle
          omega
        have hKsplit : K - processed = (K - (processed + 1)) + 1 := by omega
        by_cases hsize : B ≤ (batch ++ [d]).length
        · rw [if_pos hsize]
          have hlenB : batch.length + 1 = B := by
            simp only [List.length_append, List.length_singleton] at hsize
            omega
          obtain ⟨bs, last, heq, hfl, hlen, hall, hne, hleB⟩ :=
            ih [] (processed + 1) (by simpa using Nat.lt_of_le_of_lt (Nat.zero_le _) hb)
              hK hpK' hle'
          refine ⟨(batch ++ [d]) :: bs, last, ?_, ?_, ?_, ?_, hne, hleB⟩
          · rw [heq]
            rfl
          · rw [List.cons_append, List.flatten_cons, hfl]
            rw [hKsplit, List.take_succ_cons]
            simp
          · rw [List.cons_append, List.length_cons, hlen]
            have hnum : batch.length + (K - processed) + B - 1
                = (([] : List String).length + (K - (processed + 1)) + B - 1) + B := by
              simp only [List.length_nil]
              omega
            rw [hnum, Nat.add_div_right _ (by omega)]
          · intro b hmem
            rcases List.mem_cons.mp hmem with h1 | h1
            · subst h1
              simp only [List.length_append, List.length_singleton]
              omega
            · exact hall b h1
        · rw [if_neg hsize]
          have hb' : (batch ++ [d]).length < B := by
            rcases Nat.lt_or_ge ((batch ++ [d]).length) B with h | h
            · exact h
            · exact absurd h hsize
          obtain ⟨bs, last, heq, hfl, hlen, hall, hne, hleB⟩ :=
            ih (batch ++ [d]) (processed + 1) hb' hK hpK' hle'
          refine ⟨bs, last, heq, ?_, ?_, hall, hne, hleB⟩
          · rw [hfl, hKsplit, List.take_succ_cons]
            simp
          · rw [hlen]
            have hnum : (batch ++ [d]).length + (K - (processed + 1)) + B - 1
                = batch.length + (K - processed) + B - 1 := by
              simp only [List.length_append, List.length_singleton]
              omega
            rw [hnum]

/-- C3 counterexample: with candidates [a, b, c], batch size 2 and cap 3, the
per-pattern loop of xx.py dispatches [a, b], then the cap branch dispatches [c]
and breaks without clearing the batch, and the post-loop flush dispatches the
same [c] again: three dispatched batches with candidate c duplicated — not
min(C, K) = 3 candidates in ceil(3/2) = 2 batches with no duplication. -/
theorem c3_cex :
    scheduleBatches ["a", "b", "c"] 2 3 = [["a", "b"], ["c"], ["c"]]
  ∧ (scheduleBatches ["a", "b", "c"] 2 3).length ≠ (min 3 3 + 2 - 1) / 2
  ∧ (scheduleBatches ["a", "b", "c"] 2 3).flatten ≠ ["a", "b", "c"].take (min 3 3) := by
  decide

/-- C3 amended: with batch size B > 0, when the cap is unbounded (K = 0) or not
reached (C < K) the loop dispatches exactly the C candidates, in order, in
ceil(C/B) batches of size B except a possibly smaller final batch, no candidate
dropped or duplicated; when the cap triggers (0 < K ≤ C) the first min(C, K) = K
candidates are partitioned in order into ceil(K/B) batches as above, but the
final (possibly partial) batch is dispatched a second time, because the cap
branch breaks without clearing the batch and the post-loop flush re-dispatches
it — apart from that duplicated final dispatch, no candidate is dropped or
duplicated. -/
theorem c3_batch_partition (doms : List String) (B K : Nat) (hB : 0 < B) :
    ((K = 0 ∨ doms.length < K) →
      (scheduleBatches doms B K).flatten = doms
      ∧ (scheduleBatches doms B K).length = (doms.length + B - 1) / B
      ∧ (∀ b ∈ (scheduleBatches doms B K).dropLast, b.length = B)
      ∧ ∀ b ∈ scheduleBatches doms B K, b ≠ [] ∧ b.length ≤ B)
  ∧ (K ≠ 0 → K ≤ doms.length →
      ∃ bs last, scheduleBatches doms B K = bs ++ [last, last]
        ∧ (bs ++ [last]).flatten = doms.take K
        ∧ (bs ++ [last]).length = (K + B - 1) / B
        ∧ (∀ b ∈ bs, b.length = B)
        ∧ last ≠ [] ∧ last.length ≤ B) := by
  have h0 : ([] : List String).length < B := by simpa using hB
  constructor
  · intro hnc
    have hnc' : K = 0 ∨ 0 + doms.length < K := by
      rcases hnc with h | h
      · exact Or.inl h
      · exact Or.inr (by omega)
    refine ⟨?_, ?_, ?_, ?_⟩
    · have h := batchLoop_nocap_flatten B K doms [] 0 h0 hnc'
      simpa [scheduleBatches] using h
    · have h := batchLoop_nocap_length B K doms [] 0 h0 hnc'
      simpa [scheduleBatches] using h
    · exact batchLoop_nocap_dropLast B K doms [] 0 h0 hnc'
    · exact batchLoop_shape B K doms [] 0 h0
  · intro hK hKC
    obtain ⟨bs, last, heq, hfl, hlen, hall, hne, hleB⟩ :=
      batchLoop_cap_structure B K doms [] 0 h0 hK (Nat.pos_of_ne_zero hK) (by omega)
    refine ⟨bs, last, heq, ?_, ?_, hall, hne, hleB⟩
    · simpa using hfl
    · simpa using hlen

theorem c3_witness :
    0 < 2
    ∧ ((((3 : Nat) = 0 ∨ (["a", "b", "c", "d", "e"] : List String).length < 3) →
        (scheduleBatches ["a", "b", "c", "d", "e"] 2 3).flatten = ["a", "b", "c", "d", "e"]
        ∧ (scheduleBatches ["a", "b", "c", "d", "e"] 2 3).length
            = ((["a", "b", "c", "d", "e"] : List String).length + 2 - 1) / 2
        ∧ (∀ b ∈ (scheduleBatches ["a", "b", "c", "d", "e"] 2 3).dropLast, b.length = 2)
        ∧ ∀ b ∈ scheduleBatches ["a", "b", "c", "d", "e"] 2 3, b ≠ [] ∧ b.length ≤ 2)
      ∧ ((3 : Nat) ≠ 0 → 3 ≤ (["a", "b", "c", "d", "e"] : List String).length →
        ∃ bs last, scheduleBatches ["a", "b", "c", "d", "e"] 2 3 = bs ++ [last, last]
          ∧ (bs ++ [last]).flatten = ["a", "b", "c", "d", "e"].take 3
          ∧ (bs ++ [last]).length = (3 + 2 - 1) / 2
          ∧ (∀ b ∈ bs, b.length = 2)
          ∧ last ≠ [] ∧ last.length ≤ 2)) :=
  ⟨by decide, c3_batch_partition ["a", "b", "c", "d", "e"] 2 3 (by decide)⟩

/-! ## Helper lemmas: the streaming expander -/

theorem flatMap_length_uniform {α : Type} (l : List α) (f : α → List String) (M : Nat)
    (h : ∀ a ∈ l, (f a).length = M) : (l.flatMap f).length = l.length * M := by
  induction l with
  | nil => simp
  | cons a rest ih =>
      simp only [List.flatMap_cons, List.length_append, List.length_cons]
      rw [h a (List.mem_cons_self a rest), ih (fun x hx => h x (List.mem_cons_of_mem a hx))]
      ring

theorem flatMap_getElem_uniform {α : Type} (l : List α) (f : α → List String) (M : Nat)
    (h : ∀ a ∈ l, (f a).length = M) :
    ∀ (i j : Nat) (hi : i < l.length), j < M →
      (l.flatMap f)[i * M + j]? = (f (l.get ⟨i, hi⟩))[j]? := by
  induction l with
  | nil => intro i j hi hj; simp at hi
  | cons a rest ih =>
      intro i j hi hj
      have hfa : (f a).length = M := h a (List.mem_cons_self a rest)
      cases i with
      | zero =>
          simp only [List.flatMap_cons, Nat.zero_mul, Nat.zero_add]
          rw [List.getElem?_append, if_pos (by rw [hfa]; exact hj)]
          rfl
      | succ i =>
          simp only [List.flatMap_cons]
          have hle : (f a).length ≤ (i + 1) * M + j := by
            rw [hfa, Nat.succ_mul]
            omega
          rw [List.getElem?_append_right hle]
          have hidx : (i + 1) * M + j - (f a).length = i * M + j := by
            rw [hfa, Nat.succ_mul]
            omega
          rw [hidx]
          have hi' : i < rest.length := by
            simp only [List.length_cons] at hi
            omega
          rw [ih (fun x hx => h x (List.mem_cons_of_mem a hx)) i j hi' hj]
          rfl

theorem map_pyStrip_eq_self :
    ∀ (lines : List String), (∀ w ∈ lines, pyStrip w = w) → lines.map pyStrip = lines := by
  intro lines
  induction lines with
  | nil => intro _; rfl
  | cons a rest ih =>
      intro h
      simp only [List.map_cons]
      rw [h a (List.mem_cons_self a rest), ih (fun x hx => h x (List.mem_cons_of_mem a hx))]

theorem cleanLines_eq_self {lines : List String}
    (h : ∀ w ∈ lines, pyStrip w = w ∧ w ≠ "") : cleanLines lines = lines := by
  unfold cleanLines
  rw [map_pyStrip_eq_self lines (fun w hw => (h w hw).1)]
  rw [List.filter_eq_self.mpr]
  intro a ha
  simpa using (h a ha).2

theorem needsMain_of_mainPlaceholders {pattern : String}
    (h : 1 ≤ (mainPlaceholders pattern).length) : needsMain pattern = true := by
  cases hA : strContains pattern "{fuzz_all}" <;>
    cases hF : strContains pattern "{fuzz}" <;>
      cases hN : strContains pattern "{fuzz_number}" <;>
        simp [needsMain, mainPlaceholders, hA, hF, hN] at h ⊢

theorem generator_main_branch (pattern : String)
    (lines number_words region_words : List String) (hM : needsMain pattern = true) :
    pattern_domain_generator pattern (some lines) number_words region_words
      = (cleanLines lines).flatMap (fun w =>
          numberRegionExpand (substMain pattern w) (strContains pattern "{number}")
            (strContains pattern "{region}") number_words region_words) := by
  simp [pattern_domain_generator, hM]

theorem flatMap_pure_eq_map {α β : Type} (g : α → β) (l : List α) :
    l.flatMap (fun x => [g x]) = l.map g := by
  induction l with
  | nil => rfl
  | cons a rest ih => simp [ih]

/-- C4: for a pattern with exactly one main (streaming) placeholder and exactly one
in-memory token ({number} or {region}), with the stream holding N non-empty already
stripped values and the in-memory list holding M values, pattern_domain_generator
yields exactly N times M candidates, and the candidate at position i*M+j is the
i-th streamed value substituted into the main placeholder, with the j-th in-memory
value substituted into the in-memory token — stream order outer, list order inner,
the stream traversed once. -/
theorem c4_stream_times_memory (pattern : String)
    (main_lines number_words region_words : List String)
    (hclean : ∀ w ∈ main_lines, pyStrip w = w ∧ w ≠ "")
    (hone : (mainPlaceholders pattern).length = 1) :
    (strContains pattern "{number}" = true → strContains pattern "{region}" = false →
      (pattern_domain_generator pattern (some main_lines) number_words
          region_words).length = main_lines.length * number_words.length
      ∧ ∀ (i j : Nat) (hi : i < main_lines.length) (hj : j < number_words.length),
          (pattern_domain_generator pattern (some main_lines) number_words
            region_words)[i * number_words.length + j]?
            = some (pyReplace (substMain pattern (main_lines.get ⟨i, hi⟩)) "{number}"
                (number_words.get ⟨j, hj⟩)))
    ∧ (strContains pattern "{region}" = true → strContains pattern "{number}" = false →
      (pattern_domain_generator pattern (some main_lines) number_words
          region_words).length = main_lines.length * region_words.length
      ∧ ∀ (i j : Nat) (hi : i < main_lines.length) (hj : j < region_words.length),
          (pattern_domain_generator pattern (some main_lines) number_words
            region_words)[i * region_words.length + j]?
            = some (pyReplace (substMain pattern (main_lines.get ⟨i, hi⟩)) "{region}"
                (region_words.get ⟨j, hj⟩))) := by
  have hM : needsMain pattern = true :=
    needsMain_of_mainPlaceholders (by omega)
  constructor
  · intro hN hR
    have hgen : pattern_domain_generator pattern (some main_lines) number_words region_words
        = main_lines.flatMap (fun w =>
            number_words.map (fun n => pyReplace (substMain pattern w) "{number}" n)) := by
      rw [generator_main_branch pattern main_lines number_words region_words hM,
        cleanLines_eq_self hclean]
      simp [numberRegionExpand, hN, hR]
    refine ⟨?_, ?_⟩
    · rw [hgen]
      exact flatMap_length_uniform _ _ _ (fun a _ => by simp)
    · intro i j hi hj
      rw [hgen, flatMap_getElem_uniform _ _ number_words.length (fun a _ => by simp) i j hi hj]
      rw [List.getElem?_map, List.getElem?_eq_getElem hj]
      rfl
  · intro hR hN
    have hgen : pattern_domain_generator pattern (some main_lines) number_words region_words
        = main_lines.flatMap (fun w =>
            region_words.map (fun r => pyReplace (substMain pattern w) "{region}" r)) := by
      rw [generator_main_branch pattern main_lines number_words region_words hM,
        cleanLines_eq_self hclean]
      simp [numberRegionExpand, hN, hR]
    refine ⟨?_, ?_⟩
    · rw [hgen]
      exact flatMap_length_uniform _ _ _ (fun a _ => by simp)
    · intro i j hi hj
      rw [hgen, flatMap_getElem_uniform _ _ region_words.length (fun a _ => by simp) i j hi hj]
      rw [List.getElem?_map, List.getElem?_eq_getElem hj]
      rfl

theorem c4_witness :
    (∀ w ∈ ["aa", "bb"], pyStrip w = w ∧ w ≠ "")
    ∧ (mainPlaceholders "{fuzz_all}-{number}.example.com").length = 1
    ∧ (strContains "{fuzz_all}-{number}.example.com" "{number}" = true →
        strContains "{fuzz_all}-{number}.example.com" "{region}" = false →
        (pattern_domain_generator "{fuzz_all}-{number}.example.com" (some ["aa", "bb"])
            ["1", "2", "3"] []).length = (["aa", "bb"] : List String).length
              * (["1", "2", "3"] : List String).length
        ∧ ∀ (i j : Nat) (hi : i < (["aa", "bb"] : List String).length)
            (hj : j < (["1", "2", "3"] : List String).length),
            (pattern_domain_generator "{fuzz_all}-{number}.example.com" (some ["aa", "bb"])
              ["1", "2", "3"] [])[i * (["1", "2", "3"] : List String).length + j]?
              = some (pyReplace
                  (substMain "{fuzz_all}-{number}.example.com"
                    ((["aa", "bb"] : List String).get ⟨i, hi⟩)) "{number}"
                  ((["1", "2", "3"] : List String).get ⟨j, hj⟩))) :=
  ⟨by decide, by decide,
    (c4_stream_times_memory "{fuzz_all}-{number}.example.com" ["aa", "bb"] ["1", "2", "3"] []
      (by decide) (by decide)).1⟩

/-- C9: when a pattern contains two or more of the main placeholders {fuzz_all},
{fuzz}, {fuzz_number} simultaneously, each streamed main word is substituted into
all of those placeholders at once (substMain folds the replacement over every
present main placeholder), producing exactly one candidate per streamed word per
in-memory combination — N candidates with no in-memory token, N*M with one
in-memory token of length M, and N*(M1*M2) with both {number} and {region} —
never a Cartesian product across the main placeholders. -/
theorem c9_simultaneous_main_placeholders (pattern : String)
    (main_lines number_words region_words : List String)
    (hclean : ∀ w ∈ main_lines, pyStrip w = w ∧ w ≠ "")
    (hmulti : 2 ≤ (mainPlaceholders pattern).length) :
    (strContains pattern "{number}" = false → strContains pattern "{region}" = false →
      pattern_domain_generator pattern (some main_lines) number_words region_words
          = main_lines.map (fun w => substMain pattern w)
      ∧ (pattern_domain_generator pattern (some main_lines) number_words
          region_words).length = main_lines.length)
  ∧ (strContains pattern "{number}" = true → strContains pattern "{region}" = false →
      pattern_domain_generator pattern (some main_lines) number_words region_words
          = main_lines.flatMap (fun w =>
              number_words.map (fun n => pyReplace (substMain pattern w) "{number}" n))
      ∧ (pattern_domain_generator pattern (some main_lines) number_words
          region_words).length = main_lines.length * number_words.length)
  ∧ (strContains pattern "{number}" = false → strContains pattern "{region}" = true →
      pattern_domain_generator pattern (some main_lines) number_words region_words
          = main_lines.flatMap (fun w =>
              region_words.map (fun r => pyReplace (substMain pattern w) "{region}" r))
      ∧ (pattern_domain_generator pattern (some main_lines) number_words
          region_words).length = main_lines.length * region_words.length)
  ∧ (strContains pattern "{number}" = true → strContains pattern "{region}" = true →
      pattern_domain_generator pattern (some main_lines) number_words region_words
          = main_lines.flatMap (fun w =>
              number_words.flatMap (fun n =>
                region_words.map (fun r =>
                  pyReplace (pyReplace (substMain pattern w) "{number}" n) "{region}" r)))
      ∧ (pattern_domain_generator pattern (some main_lines) number_words
          region_words).length
          = main_lines.length * (number_words.length * region_words.length)) := by
  have hM : needsMain pattern = true := needsMain_of_mainPlaceholders (by omega)
  refine ⟨?_, ?_, ?_, ?_⟩
  · intro hN hR
    have hgen : pattern_domain_generator pattern (some main_lines) number_words region_words
        = main_lines.map (fun w => substMain pattern w) := by
      rw [generator_main_branch pattern main_lines number_words region_words hM,
        cleanLines_eq_self hclean]
      simp only [numberRegionExpand, hN, hR, Bool.false_and, if_false, Bool.false_eq_true]
      exact flatMap_pure_eq_map _ _
    exact ⟨hgen, by rw [hgen]; simp⟩
  · intro hN hR
    have hgen : pattern_domain_generator pattern (some main_lines) number_words region_words
        = main_lines.flatMap (fun w =>
            number_words.map (fun n => pyReplace (substMain pattern w) "{number}" n)) := by
      rw [generator_main_branch pattern main_lines number_words region_words hM,
        cleanLines_eq_self hclean]
      simp [numberRegionExpand, hN, hR]
    refine ⟨hgen, ?_⟩
    rw [hgen]
    exact flatMap_length_uniform _ _ _ (fun a _ => by simp)
  · intro hN hR
    have hgen : pattern_domain_generator pattern (some main_lines) number_words region_words
        = main_lines.flatMap (fun w =>
            region_words.map (fun r => pyReplace (substMain pattern w) "{region}" r)) := by
      rw [generator_main_branch pattern main_lines number_words region_words hM,
        cleanLines_eq_self hclean]
      simp [numberRegionExpand, hN, hR]
    refine ⟨hgen, ?_⟩
    rw [hgen]
    exact flatMap_length_uniform _ _ _ (fun a _ => by simp)
  · intro hN hR
    have hgen : pattern_domain_generator pattern (some main_lines) number_words region_words
        = main_lines.flatMap (fun w =>
            number_words.flatMap (fun n =>
              region_words.map (fun r =>
                pyReplace (pyReplace (substMain pattern w) "{number}" n) "{region}" r))) := by
      rw [generator_main_branch pattern main_lines number_words region_words hM,
        cleanLines_eq_self hclean]
      simp [numberRegionExpand, hN, hR]
    refine ⟨hgen, ?_⟩
    rw [hgen]
    refine flatMap_length_uniform _ _ (number_words.length * region_words.length)
      (fun w _ => ?_)
    exact flatMap_length_uniform _ _ _ (fun n _ => by simp)

theorem c9_witness :
    (∀ w ∈ ["a", "b"], pyStrip w = w ∧ w ≠ "")
  ∧ 2 ≤ (mainPlaceholders "{fuzz}.{fuzz_number}-{number}.com").length
  ∧ (strContains "{fuzz}.{fuzz_number}-{number}.com" "{number}" = true →
      strContains "{fuzz}.{fuzz_number}-{number}.com" "{region}" = false →
      pattern_domain_generator "{fuzz}.{fuzz_number}-{number}.com" (some ["a", "b"])
          ["1", "2"] []
          = (["a", "b"] : List String).flatMap (fun w =>
              (["1", "2"] : List String).map (fun n =>
                pyReplace (substMain "{fuzz}.{fuzz_number}-{number}.com" w) "{number}" n))
      ∧ (pattern_domain_generator "{fuzz}.{fuzz_number}-{number}.com" (some ["a", "b"])
          ["1", "2"] []).length
          = (["a", "b"] : List String).length * (["1", "2"] : List String).length) :=
  ⟨by decide, by decide,
    (c9_simultaneous_main_placeholders "{fuzz}.{fuzz_number}-{number}.com" ["a", "b"]
      ["1", "2"] [] (by decide) (by decide)).2.1⟩

/-! ## Helper lemmas: filters and products -/

theorem filter_eq_nil_of {α : Type} (p : α → Bool) :
    ∀ (l : List α), (∀ a ∈ l, p a = false) → l.filter p = [] := by
  intro l
  induction l with
  | nil => intro _; rfl
  | cons a rest ih =>
      intro h
      rw [List.filter_cons, if_neg (by simp [h a (List.mem_cons_self a rest)])]
      exact ih (fun x hx => h x (List.mem_cons_of_mem a hx))

theorem foldl_mul_len_zero_acc (ls : List (List String)) :
    ls.foldl (fun acc l => acc * l.length) 0 = 0 := by
  induction ls with
  | nil => rfl
  | cons l rest ih => simpa using ih

theorem foldl_mul_of_mem_zero :
    ∀ (ls : List (List String)) (a : Nat), (∃ l ∈ ls, l.length = 0) →
      ls.foldl (fun acc l => acc * l.length) a = 0 := by
  intro ls
  induction ls with
  | nil =>
      intro a h
      simp at h
  | cons l rest ih =>
      intro a h
      rcases h with ⟨l0, hl0, hlen⟩
      rcases List.mem_cons.mp hl0 with h1 | h1
      · subst h1
        rw [List.foldl_cons, hlen, Nat.mul_zero]
        exact foldl_mul_len_zero_acc rest
      · rw [List.foldl_cons]
        exact ih _ ⟨l0, h1, hlen⟩

/-- C1 counterexample: the pattern www.example.com contains none of the recognized
placeholder tokens, yet pattern_domain_generator (the Pattern Expander of xx.py and
xx_update.py) yields zero candidates for it, not one candidate equal to the
pattern. -/
theorem c1_cex :
    pattern_domain_generator "www.example.com" (some ["alpha"]) ["1"] ["eu"] = []
  ∧ pattern_domain_generator "www.example.com" (some ["alpha"]) ["1"] ["eu"]
      ≠ ["www.example.com"] := by
  decide

/-- C1 amended: for every pattern containing none of the recognized placeholder
tokens, the expander of addlast.py (expand_pattern) yields exactly one candidate
equal to the pattern, while the expander of xx.py and xx_update.py
(pattern_domain_generator) yields zero candidates; in neither case is the pattern
routed through the bulk path. -/
theorem c1_no_placeholder_amended (pattern : String)
    (token_lists : List (String × List String)) (max_expand : Option Nat)
    (main_wordlist : Option (List String)) (number_words region_words : List String)
    (h1 : strContains pattern "{fuzz_all}" = false)
    (h2 : strContains pattern "{fuzz}" = false)
    (h3 : strContains pattern "{fuzz_number}" = false)
    (h4 : strContains pattern "{number}" = false)
    (h5 : strContains pattern "{region}" = false)
    (htl : ∀ t ∈ token_lists, strContains pattern t.1 = false) :
    expand_pattern pattern token_lists max_expand = Except.ok [pattern]
  ∧ pattern_domain_generator pattern main_wordlist number_words region_words = [] := by
  constructor
  · have hpres : presentTokens pattern token_lists = [] :=
      filter_eq_nil_of _ token_lists (fun t ht => htl t ht)
    simp [expand_pattern, hpres]
  · have hM : needsMain pattern = false := by simp [needsMain, h1, h2, h3]
    simp [pattern_domain_generator, hM, h4, h5]

theorem c1_amended_witness :
    strContains "static.example.com" "{fuzz_all}" = false
  ∧ strContains "static.example.com" "{fuzz}" = false
  ∧ strContains "static.example.com" "{fuzz_number}" = false
  ∧ strContains "static.example.com" "{number}" = false
  ∧ strContains "static.example.com" "{region}" = false
  ∧ (∀ t ∈ [("{fuzz_all}", ["w"])], strContains "static.example.com" t.1 = false)
  ∧ (expand_pattern "static.example.com" [("{fuzz_all}", ["w"])] (some 10)
        = Except.ok ["static.example.com"]
    ∧ pattern_domain_generator "static.example.com" (some ["w"]) ["1"] ["eu"] = []) :=
  ⟨by decide, by decide, by decide, by decide, by decide, by decide,
    c1_no_placeholder_amended "static.example.com" [("{fuzz_all}", ["w"])] (some 10)
      (some ["w"]) ["1"] ["eu"] (by decide) (by decide) (by decide) (by decide) (by decide)
      (by decide)⟩

/-! ## Helper lemmas: extractor line handling -/

theorem fields_empty : fields "" = [] := rfl

theorem parseAliveLine_none_of_short {line : String}
    (h : (fields (pyStrip line)).length < 3) : parseAliveLine line = none := by
  simp only [parseAliveLine]
  by_cases he : pyStrip line = ""
  · simp [he]
  · simp only [he, if_false]
    cases hf : fields (pyStrip line) with
    | nil => rfl
    | cons p0 tail =>
        cases tail with
        | nil => rfl
        | cons p1 tail2 =>
            cases tail2 with
            | nil => rfl
            | cons p2 tail3 =>
                rw [hf] at h
                simp at h
                omega

theorem parseSimpleLine_none_of_short {line : String}
    (h : (fields (pyStrip line)).length < 3) : parseSimpleLine line = none := by
  simp only [parseSimpleLine]
  by_cases he : pyStrip line = ""
  · simp [he]
  · simp only [he, if_false]
    cases hf : fields (pyStrip line) with
    | nil => rfl
    | cons p0 tail =>
        cases tail with
        | nil => rfl
        | cons p1 tail2 =>
            cases tail2 with
            | nil => rfl
            | cons p2 tail3 =>
                rw [hf] at h
                simp at h
                omega

theorem parseAliveLine_none_of_kind {line p0 p1 p2 : String} {ps : List String}
    (hf : fields (pyStrip line) = p0 :: p1 :: p2 :: ps) (hk : pyUpper p1 ≠ "A") :
    parseAliveLine line = none := by
  simp only [parseAliveLine]
  have he : pyStrip line ≠ "" := by
    intro he
    rw [he, fields_empty] at hf
    exact List.noConfusion hf
  simp only [he, if_false]
  rw [hf]
  simp [hk]

/-- C5 counterexample: on the three resolver output lines of the claim, the Result
Extractor of addlast.py (parse_massdns_simple_output) does not return exactly the
one positive name a.example.com: it keeps the CNAME record as well, reformatted as
a full "name kind data" line, because it never filters on the record kind. -/
theorem c5_cex :
    parse_massdns_simple_output (some ["a.example.com. A 1.2.3.4",
        "b.example.com. CNAME c.example.com.", "malformed"]) ≠ ["a.example.com"]
  ∧ parse_massdns_simple_output (some ["a.example.com. A 1.2.3.4",
        "b.example.com. CNAME c.example.com.", "malformed"])
      = ["a.example.com A 1.2.3.4", "b.example.com CNAME c.example.com."] := by
  decide

/-- C5 amended: on the claimed three lines the extractor of xx.py
(parse_massdns_results_for_alive) returns exactly the positive name a.example.com
with the trailing dot stripped; for every output file, both extractors skip lines
with fewer than three whitespace-separated fields without aborting, and lines
whose uppercased record kind differs from A contribute no positive name in xx.py's
extractor (addlast.py's extractor instead keeps records of every kind). -/
theorem c5_extractor_amended :
    parse_massdns_results_for_alive (some ["a.example.com. A 1.2.3.4",
        "b.example.com. CNAME c.example.com.", "malformed"]) = ["a.example.com"]
  ∧ (∀ (line : String) (rest : List String), (fields (pyStrip line)).length < 3 →
      parse_massdns_results_for_alive (some (line :: rest))
          = parse_massdns_results_for_alive (some rest)
      ∧ parse_massdns_simple_output (some (line :: rest))
          = parse_massdns_simple_output (some rest))
  ∧ ∀ (line : String) (rest : List String) (p0 p1 p2 : String) (ps : List String),
      fields (pyStrip line) = p0 :: p1 :: p2 :: ps → pyUpper p1 ≠ "A" →
      parse_massdns_results_for_alive (some (line :: rest))
          = parse_massdns_results_for_alive (some rest) := by
  refine ⟨by decide, ?_, ?_⟩
  · intro line rest hlen
    constructor
    · simp [parse_massdns_results_for_alive, List.filterMap_cons,
        parseAliveLine_none_of_short hlen]
    · simp [parse_massdns_simple_output, List.filterMap_cons,
        parseSimpleLine_none_of_short hlen]
  · intro line rest p0 p1 p2 ps hf hk
    simp [parse_massdns_results_for_alive, List.filterMap_cons,
      parseAliveLine_none_of_kind hf hk]

theorem c5_amended_witness :
    (fields (pyStrip "malformed")).length < 3
  ∧ (parse_massdns_results_for_alive (some ["malformed", "x.com. A 1.2.3.4"])
        = parse_massdns_results_for_alive (some ["x.com. A 1.2.3.4"])
    ∧ parse_massdns_simple_output (some ["malformed", "x.com. A 1.2.3.4"])
        = parse_massdns_simple_output (some ["x.com. A 1.2.3.4"])) :=
  ⟨by decide, c5_extractor_amended.2.1 "malformed" ["x.com. A 1.2.3.4"] (by decide)⟩

/-- C6 counterexample: in xx_update.py, when the resolver binary is absent at
batch dispatch, run_massdns_on_targets catches the FileNotFoundError and returns
False — the very same continue-with-the-next-batch value it returns for a
batch-local non-zero resolver exit — so the whole run does not abort. -/
theorem c6_cex :
    run_massdns_on_targets_update ["x.example.com"] RunOutcome.fileNotFound = false
  ∧ run_massdns_on_targets_update ["x.example.com"] RunOutcome.fileNotFound
      = run_massdns_on_targets_update ["x.example.com"] RunOutcome.calledProcessError := by
  decide

/-- C6 amended: an absent resolver binary is never treated as a successful batch
with zero results: in xx.py the FileNotFoundError is uncaught and aborts the whole
run (modelled as Except.error, distinct from the warning-and-continue Except.ok
false of a non-zero exit), while in xx_update.py the absence is caught, reported
with a distinct message, and returned as the same batch-local failure value False
as a non-zero exit, so the run continues with the next batch instead of
aborting. -/
theorem c6_resolver_absent_amended (targets : List String) (h : targets ≠ []) :
    run_massdns_on_targets targets RunOutcome.fileNotFound
        = Except.error PyExn.fileNotFoundError
  ∧ run_massdns_on_targets targets RunOutcome.calledProcessError = Except.ok false
  ∧ run_massdns_on_targets_update targets RunOutcome.fileNotFound = false
  ∧ run_massdns_on_targets_update targets RunOutcome.calledProcessError = false
  ∧ ∀ oc, run_massdns_on_targets_update targets oc = true → oc = RunOutcome.success := by
  have he : targets.isEmpty = false := by
    cases targets with
    | nil => exact absurd rfl h
    | cons a l => rfl
  refine ⟨?_, ?_, ?_, ?_, ?_⟩
  · simp [run_massdns_on_targets, he]
  · simp [run_massdns_on_targets, he]
  · simp [run_massdns_on_targets_update, he]
  · simp [run_massdns_on_targets_update, he]
  · intro oc hoc
    cases oc with
    | success => rfl
    | calledProcessError => simp [run_massdns_on_targets_update, he] at hoc
    | fileNotFound => simp [run_massdns_on_targets_update, he] at hoc

theorem c6_amended_witness :
    (["x.example.com"] : List String) ≠ []
  ∧ (run_massdns_on_targets ["x.example.com"] RunOutcome.fileNotFound
        = Except.error PyExn.fileNotFoundError
    ∧ run_massdns_on_targets ["x.example.com"] RunOutcome.calledProcessError
        = Except.ok false
    ∧ run_massdns_on_targets_update ["x.example.com"] RunOutcome.fileNotFound = false
    ∧ run_massdns_on_targets_update ["x.example.com"] RunOutcome.calledProcessError = false
    ∧ ∀ oc, run_massdns_on_targets_update ["x.example.com"] oc = true
        → oc = RunOutcome.success) :=
  ⟨by decide, c6_resolver_absent_amended ["x.example.com"] (by decide)⟩

/-- C7: for every non-blank, non-comment, already stripped pattern line containing
at least one bound token whose fully in-memory expansion size (the product of the
lengths of the bound token lists occurring in it) exceeds the ceiling m,
expand_pattern aborts with the reported size before producing any candidate, the
driver records that single line as aborted (so nothing of it is dispatched), and
every other line of the run is processed exactly as it would be without it. -/
theorem c7_expansion_ceiling (pattern : String)
    (token_lists : List (String × List String)) (m : Nat)
    (hstrip : pyStrip pattern = pattern) (hne : pattern ≠ "")
    (hnc : leadsWith pattern.data ['#'] = false)
    (htok : presentTokens pattern token_lists ≠ [])
    (hsize : m < expansionSize pattern token_lists) :
    expand_pattern pattern token_lists (some m)
        = Except.error (expansionSize pattern token_lists)
  ∧ processLine token_lists (some m) pattern
      = LineOutcome.aborted (expansionSize pattern token_lists)
  ∧ ∀ xs ys, addlastDriver token_lists (some m) (xs ++ pattern :: ys)
      = addlastDriver token_lists (some m) xs
        ++ LineOutcome.aborted (expansionSize pattern token_lists)
          :: addlastDriver token_lists (some m) ys := by
  have hpe : (presentTokens pattern token_lists).isEmpty = false := by
    cases hp : presentTokens pattern token_lists with
    | nil => exact absurd hp htok
    | cons a l => rfl
  have hsize' : m < ((presentTokens pattern token_lists).map Prod.snd).foldl
      (fun acc l => acc * l.length) 1 := hsize
  have hany : ((presentTokens pattern token_lists).map Prod.snd).any
      (fun l => l.length == 0) = false := by
    by_contra hx
    have hx1 : ((presentTokens pattern token_lists).map Prod.snd).any
        (fun l => l.length == 0) = true := by
      cases hx2 : ((presentTokens pattern token_lists).map Prod.snd).any
          (fun l => l.length == 0) with
      | false => exact absurd hx2 hx
      | true => rfl
    obtain ⟨l, hl, hl0⟩ := List.any_eq_true.mp hx1
    have h0 : expansionSize pattern token_lists = 0 :=
      foldl_mul_of_mem_zero _ 1 ⟨l, hl, by simpa using hl0⟩
    rw [h0] at hsize
    omega
  have hexp : expand_pattern pattern token_lists (some m)
      = Except.error (expansionSize pattern token_lists) := by
    simp only [expand_pattern, hpe, Bool.false_eq_true, if_false, hany]
    rw [if_pos hsize']
    rfl
  have hline : processLine token_lists (some m) pattern
      = LineOutcome.aborted (expansionSize pattern token_lists) := by
    simp only [processLine, hstrip]
    rw [if_neg ?hcond]
    case hcond =>
      rintro (hc | hc)
      · exact hne hc
      · rw [hnc] at hc
        exact Bool.false_ne_true hc
    rw [hexp]
  refine ⟨hexp, hline, ?_⟩
  intro xs ys
  simp only [addlastDriver, List.map_append, List.map_cons, hline]

theorem c7_witness :
    pyStrip "x.{region}" = "x.{region}"
  ∧ "x.{region}" ≠ ""
  ∧ leadsWith "x.{region}".data ['#'] = false
  ∧ presentTokens "x.{region}" [("{fuzz_number}", ["1"]), ("{region}", ["a", "b"])] ≠ []
  ∧ 1 < expansionSize "x.{region}" [("{fuzz_number}", ["1"]), ("{region}", ["a", "b"])]
  ∧ (expand_pattern "x.{region}" [("{fuzz_number}", ["1"]), ("{region}", ["a", "b"])]
        (some 1)
        = Except.error
            (expansionSize "x.{region}" [("{fuzz_number}", ["1"]), ("{region}", ["a", "b"])])
    ∧ processLine [("{fuzz_number}", ["1"]), ("{region}", ["a", "b"])] (some 1) "x.{region}"
        = LineOutcome.aborted
            (expansionSize "x.{region}" [("{fuzz_number}", ["1"]), ("{region}", ["a", "b"])])
    ∧ ∀ xs ys,
        addlastDriver [("{fuzz_number}", ["1"]), ("{region}", ["a", "b"])] (some 1)
            (xs ++ "x.{region}" :: ys)
          = addlastDriver [("{fuzz_number}", ["1"]), ("{region}", ["a", "b"])] (some 1) xs
            ++ LineOutcome.aborted
                (expansionSize "x.{region}" [("{fuzz_number}", ["1"]), ("{region}", ["a", "b"])])
              :: addlastDriver [("{fuzz_number}", ["1"]), ("{region}", ["a", "b"])] (some 1) ys) :=
  ⟨by decide, by decide, by decide, by decide, by decide,
    c7_expansion_ceiling "x.{region}" [("{fuzz_number}", ["1"]), ("{region}", ["a", "b"])] 1
      (by decide) (by decide) (by decide) (by decide) (by decide)⟩
